import Mathlib

/-!
Verification development for the on-demand SDN slicing controller
(`slicing_controller.py`).  The definitions below are a shallow embedding of
the controller state and of the operations `activate_slice`,
`deactivate_slice` and `install_path`, translated from the source.

Modelling conventions:
  * Python integers are `Int` (bandwidth values) or `Nat` (switch ids, ports,
    rule priorities).
  * Python dicts whose iteration order matters (`self.slices`,
    `self.active_slices`) are association lists in insertion order; the
    `del` operation is removal, re-insertion appends at the end, matching
    CPython dict semantics.
  * The per-edge mutable field `used_bw` is a total function
    `Nat x Nat -> Int`; only the eight static edges are ever touched.
  * A Python operation that returns `(bool, message)` is an `Outcome`
    (`ok` / `err`) paired with the post state; an uncaught Python exception
    is the outcome `crash` paired with the state at the raise point.
  * The victim set `victims_to_preempt` is a Python `set`; we model it as a
    duplicate-free list.  The final state does not depend on the iteration
    order (each victim deactivation touches disjoint table entries and adds
    commute), so fixing first-insertion order is a sound refinement.
  * The dataplane (switch rules) is modelled separately by the pure function
    `install_path`, which returns the list of rules the source installs;
    QoS shaper subprocess invocations and the `ifaces` bookkeeping they use
    are external side effects outside every claim and are not modelled.
-/

namespace SDN

/-- A flow descriptor: `{src: ..., dst: ...}` entry of a slice. -/
structure Flow where
  src : String
  dst : String
deriving DecidableEq, Repr

/-- A slice catalog entry, as parsed from `slices.yaml`:
`capacity_pct`, optional `priority` (read via .get with default 0),
and the flow list. -/
structure SliceSpec where
  capacity_pct : Int
  prio : Option Int
  flows : List Flow
deriving DecidableEq, Repr

/-- The slice catalog `self.slices`, in insertion order. -/
def Catalog : Type := List (String × SliceSpec)

/-- An entry of `self.active_slices`: the recorded paths and the reserved
bandwidth `bw`.  (The `ifaces` field of the source is QoS bookkeeping not
modelled here.) -/
structure ActiveInfo where
  paths : List (List Nat)
  bw : Int
deriving DecidableEq, Repr

/-- The mutable controller state: per-edge `used_bw` and the active-slice
table `self.active_slices` in insertion order. -/
structure CState where
  used : Nat × Nat → Int
  active : List (String × ActiveInfo)

/-- Result of a controller operation: a `(True, msg)` return, a
`(False, msg)` return, or an uncaught Python exception. -/
inductive Outcome where
  | ok : String → Outcome
  | err : String → Outcome
  | crash : Outcome
deriving DecidableEq, Repr

/-- Association-list lookup, modelling Python dict indexing/`in`. -/
def alookup {β : Type} : List (String × β) → String → Option β
  | [], _ => none
  | (k, v) :: rest, n => if k = n then some v else alookup rest n

/-- Remove every binding of a key, modelling `del d[k]` on a dict
(which holds each key at most once). -/
def removeSlice : List (String × ActiveInfo) → String → List (String × ActiveInfo)
  | [], _ => []
  | (k, v) :: rest, n => if k = n then removeSlice rest n else (k, v) :: removeSlice rest n

/-- Effective priority of a spec: `.get` of the priority key, default 0. -/
def specPrio (s : SliceSpec) : Int := s.prio.getD 0

/-- Priority lookup of a catalog slice, default 0; made total, which is
only exercised on states violating invariant I4 (never reachable). -/
def catPriority (cat : Catalog) (n : String) : Int :=
  match alookup cat n with
  | some s => specPrio s
  | none => 0

/-! ### Static topology (`get_topology_data`) -/

/-- The static directed links with their egress ports, from
`get_topology_data`. -/
def staticEdges : List ((Nat × Nat) × Nat) :=
  [((1, 2), 1), ((2, 1), 1), ((1, 4), 2), ((4, 1), 1),
   ((2, 3), 2), ((3, 2), 1), ((2, 5), 3), ((5, 2), 1)]

/-- The switch nodes. -/
def nodeList : List Nat := [1, 2, 3, 4, 5]

/-- Predicate `self.net.has_edge(u, v)` on the static topology. -/
def hasEdge (u v : Nat) : Bool :=
  staticEdges.any (fun p => p.1 = (u, v))

/-- The egress port attribute of an edge (only queried on real edges). -/
def edgePort (u v : Nat) : Nat :=
  match staticEdges.find? (fun p => p.1 = (u, v)) with
  | some p => p.2
  | none => 0

/-- Every edge capacity is set to 100 by `get_topology_data`. -/
def linkCapacity : Int := 100

/-- Out-neighbours in insertion order of the static link list (networkx
adjacency iteration order). -/
def neighbors : Nat → List Nat
  | 1 => [2, 4]
  | 2 => [1, 3, 5]
  | 3 => [2]
  | 4 => [1]
  | 5 => [2]
  | _ => []

/-- The consecutive hop pairs of a path: `zip(path, path[1:])`. -/
def edgesOf (p : List Nat) : List (Nat × Nat) :=
  p.zip p.tail

/-- Test `(u, v) in zip(active_path, active_path[1:])`. -/
def pathHasEdge (p : List Nat) (u v : Nat) : Bool :=
  (edgesOf p).contains (u, v)

/-- All consecutive pairs of the path are edges of the static graph. -/
def validEdgePathB (p : List Nat) : Bool :=
  (edgesOf p).all (fun e => hasEdge e.1 e.2)

/-! ### Host locator and shortest paths -/

/-- Function `get_host_location`: the static host-to-switch map
(`host_to_switch_map.get(host_name)`). -/
def get_host_location : String → Option Nat
  | "h1" => some 1
  | "h2" => some 1
  | "g1" => some 1
  | "h5" => some 2
  | "h3" => some 3
  | "h4" => some 3
  | "g2" => some 3
  | "gs" => some 4
  | "ps" => some 5
  | _ => none

/-- Map `IP_MAP` (total with default, only applied to mapped hosts). -/
def ipOf : String → String
  | "h1" => "10.0.0.1"
  | "h2" => "10.0.0.2"
  | "h3" => "10.0.0.3"
  | "h4" => "10.0.0.4"
  | "h5" => "10.0.0.5"
  | "g1" => "10.0.0.6"
  | "g2" => "10.0.0.7"
  | "gs" => "10.0.0.8"
  | "ps" => "10.0.0.9"
  | _ => ""

/-- Result of `nx.shortest_path`: a path, the `NetworkXNoPath` exception
(caught by `activate_slice`), or the `NodeNotFound` exception (NOT caught:
`except nx.NetworkXNoPath` does not match it). -/
inductive PathResult where
  | found : List Nat → PathResult
  | noPath : PathResult
  | nodeNotFound : PathResult
deriving DecidableEq, Repr

/-- Breadth-first search over the static graph.  Paths are kept reversed
(head is the frontier node); nodes are marked visited on enqueue.  The
static graph is a tree, so the simple path found is the unique shortest
path, whatever the traversal tie-breaking: this is extensionally the
`nx.shortest_path` result.  Fuel 20 exceeds any queue length here. -/
def bfs (target : Nat) : Nat → List (List Nat) → List Nat → Option (List Nat)
  | 0, _, _ => none
  | _ + 1, [], _ => none
  | fuel + 1, p :: rest, visited =>
    match p with
    | [] => none
    | u :: _ =>
      if u = target then some p.reverse
      else
        let next := (neighbors u).filter (fun v => ¬ visited.contains v)
        bfs target fuel (rest ++ next.map (fun v => v :: p)) (visited ++ next)

/-- Models `nx.shortest_path(self.net, src, dst)` where the endpoints come from
`get_host_location` and may be `None`: a node absent from the graph raises
`NodeNotFound`. -/
def shortest_path (a b : Option Nat) : PathResult :=
  match a, b with
  | some s, some d =>
    if s ∈ nodeList ∧ d ∈ nodeList then
      match bfs d 20 [[s]] [s] with
      | some p => .found p
      | none => .noPath
    else .nodeNotFound
  | _, _ => .nodeNotFound

/-! ### Bandwidth accounting -/

/-- Pointwise update of the `used_bw` map. -/
def updUsed (f : Nat × Nat → Int) (e : Nat × Nat) (x : Int) : Nat × Nat → Int :=
  fun e2 => if e2 = e then x else f e2

/-- Phase 3 inner loop: the increment of the used_bw edge attribute
over the hops of one path. -/
def reserveHops (f : Nat × Nat → Int) (p : List Nat) (bw : Int) : Nat × Nat → Int :=
  (edgesOf p).foldl (fun g e => updUsed g e (g e + bw)) f

/-- Release loop of `deactivate_slice`: guarded by `has_edge`, subtracts
`bw_to_release` on each hop of one path. -/
def releaseHops (f : Nat × Nat → Int) (p : List Nat) (bw : Int) : Nat × Nat → Int :=
  (edgesOf p).foldl (fun g e => if hasEdge e.1 e.2 then updUsed g e (g e - bw) else g) f

/-- Release over all recorded paths of a slice. -/
def releasePaths (f : Nat × Nat → Int) (ps : List (List Nat)) (bw : Int) : Nat × Nat → Int :=
  ps.foldl (fun g p => releaseHops g p bw) f

/-! ### deactivate_slice -/

/-- Operation `deactivate_slice`: not-active guard, bandwidth release over the
recorded paths, table removal.  Dataplane rule removal and shaper teardown
touch no modelled state; the catalog read that drives rule removal only
serves the dataplane and always succeeds on reachable states (every active
name comes from the catalog, invariant I4). -/
def deactivate_slice (st : CState) (name : String) : Outcome × CState :=
  match alookup st.active name with
  | none => (.err ("Slice " ++ name ++ " is not active."), st)
  | some info =>
    (.ok ("Slice " ++ name ++ " deactivated successfully."),
      { used := releasePaths st.used info.paths info.bw,
        active := removeSlice st.active name })

/-! ### activate_slice: phase 1 (admission and victim selection) -/

/-- The tuple (active_slice_name, bw, active_slice_priority)
collected for one bottleneck link. -/
def preemptable (cat : Catalog) (active : List (String × ActiveInfo))
    (prio : Int) (u v : Nat) : List (String × Int × Int) :=
  match active with
  | [] => []
  | (n, info) :: rest =>
    let ap := catPriority cat n
    if ap < prio ∧ info.paths.any (fun p => pathHasEdge p u v) then
      (n, info.bw, ap) :: preemptable cat rest prio u v
    else
      preemptable cat rest prio u v

/-- Stable insertion of one entry after all entries of priority ≤ its own:
building block of the stable sort below. -/
def insPrio (x : String × Int × Int) : List (String × Int × Int) → List (String × Int × Int)
  | [] => [x]
  | y :: ys => if y.2.2 ≤ x.2.2 then y :: insPrio x ys else x :: y :: ys

/-- Models `preemptable_slices.sort(key=lambda x: x[2])`: Python list.sort is a
stable sort on the priority key alone.  The fold of stable insertions
computes exactly the stable sort (sortedness and stability are proved
below). -/
def sortByPrio (l : List (String × Int × Int)) : List (String × Int × Int) :=
  l.foldl (fun acc x => insPrio x acc) []

/-- The greedy victim loop: walk the sorted list, stopping as soon as
`available_bw + freed_bw >= required_bw`, otherwise accumulating the entry.
Returns the final `freed_bw` and the selected entries in order. -/
def greedyEntries (avail need freed : Int) :
    List (String × Int × Int) → Int × List (String × Int × Int)
  | [] => (freed, [])
  | (n, bw, p) :: rest =>
    if avail + freed ≥ need then (freed, [])
    else
      let r := greedyEntries avail need (freed + bw) rest
      (r.1, (n, bw, p) :: r.2)

/-- Models `victims_to_preempt.update(victims_for_this_link)`: set union, modelled
on duplicate-free lists by appending the unseen names. -/
def unionNames (a b : List String) : List String :=
  a ++ b.filter (fun x => ¬ a.contains x)

/-- Non-crash phase 1 failure: a `(False, msg)` return. -/
inductive P1Err where
  | crashNF : P1Err
  | refuse : String → P1Err
deriving DecidableEq, Repr

/-- The per-hop loop of phase 1 for one path: residual capacity check,
victim search on bottleneck links, early `(False, msg)` return when even
preemption cannot free enough. -/
def checkHops (cat : Catalog) (st : CState) (name : String) (need prio : Int)
    (vacc : List String) : List (Nat × Nat) → Except String (List String)
  | [] => .ok vacc
  | (u, v) :: rest =>
    let avail := linkCapacity - st.used (u, v)
    if need > avail then
      let pre := sortByPrio (preemptable cat st.active prio u v)
      let r := greedyEntries avail need 0 pre
      if avail + r.1 ≥ need then
        checkHops cat st name need prio (unionNames vacc (r.2.map (fun t => t.1))) rest
      else
        .error ("Cannot activate slice " ++ name ++ ": Insufficient bandwidth on link s"
          ++ toString u ++ "-s" ++ toString v ++ " even after preemption. Required: "
          ++ toString need ++ ", Available+Preemptable: " ++ toString (avail + r.1))
    else
      checkHops cat st name need prio vacc rest

/-- Phase 1 over the flow list: resolve each flow, run the hop checks,
accumulate `all_paths` and the victim set.  `NodeNotFound` escapes as a
crash; `NetworkXNoPath` is caught and returned as `(False, msg)`. -/
def phase1 (cat : Catalog) (st : CState) (name : String) (need prio : Int) :
    List Flow → List (List Nat) → List String → Except P1Err (List (List Nat) × List String)
  | [], pacc, vacc => .ok (pacc, vacc)
  | f :: fs, pacc, vacc =>
    match shortest_path (get_host_location f.src) (get_host_location f.dst) with
    | .nodeNotFound => .error .crashNF
    | .noPath => .error (.refuse ("No path found for flow " ++ f.src ++ "->" ++ f.dst))
    | .found p =>
      match checkHops cat st name need prio vacc (edgesOf p) with
      | .error m => .error (.refuse m)
      | .ok vacc2 => phase1 cat st name need prio fs (pacc ++ [p]) vacc2

/-! ### activate_slice: phase 3 (reservation) and assembly -/

/-- Phase 3 loop: for each path, append it to the record and reserve the
bandwidth on its hops; `install_path` then raises `IndexError` on a
one-node path (`path[1]` at the QoS step), aborting the whole call with
the reservations made so far in place.  Returns (crashed, used, recorded
paths). -/
def phase3Go (need : Int) :
    List (List Nat) → (Nat × Nat → Int) → List (List Nat) →
      Bool × (Nat × Nat → Int) × List (List Nat)
  | [], used, done => (false, used, done)
  | p :: rest, used, done =>
    let used2 := reserveHops used p need
    let done2 := done ++ [p]
    if p.length < 2 then (true, used2, done2)
    else phase3Go need rest used2 done2

/-- Operation `activate_slice`: catalog and already-active guards, phase 1 admission,
phase 2 victim deactivation, phase 3 reservation and record insertion. -/
def activate_slice (cat : Catalog) (st : CState) (name : String) : Outcome × CState :=
  match alookup cat name with
  | none => (.err ("Slice " ++ name ++ " not found."), st)
  | some spec =>
    match alookup st.active name with
    | some _ => (.err ("Slice " ++ name ++ " is already active."), st)
    | none =>
      let need := spec.capacity_pct
      let prio := specPrio spec
      match phase1 cat st name need prio spec.flows [] [] with
      | .error .crashNF => (.crash, st)
      | .error (.refuse m) => (.err m, st)
      | .ok pv =>
        let st2 := pv.2.foldl (fun s v => (deactivate_slice s v).2) st
        match phase3Go need pv.1 st2.used [] with
        | (true, used2, done2) =>
          (.crash, { used := used2, active := st2.active ++ [(name, ⟨done2, need⟩)] })
        | (false, used2, done2) =>
          (.ok ("Slice " ++ name ++ " activated successfully."),
            { used := used2, active := st2.active ++ [(name, ⟨done2, need⟩)] })

/-! ### Operation sequences and reachability -/

/-- The two API mutations. -/
inductive Op where
  | act : String → Op
  | deact : String → Op
deriving DecidableEq, Repr

/-- Dispatch one operation. -/
def runOp (cat : Catalog) (st : CState) : Op → Outcome × CState
  | .act n => activate_slice cat st n
  | .deact n => deactivate_slice st n

/-- Whether an outcome is an uncaught exception. -/
def isCrash : Outcome → Bool
  | .crash => true
  | _ => false

/-- The freshly loaded state: all `used_bw` zero, no active slice. -/
def initState : CState := { used := fun _ => 0, active := [] }

/-- Run a sequence of operations from the fresh state; `none` as soon as an
operation fails to complete (uncaught exception). -/
def runOps (cat : Catalog) (ops : List Op) : Option CState :=
  ops.foldl
    (fun acc op => acc.bind (fun st =>
      let r := runOp cat st op
      if isCrash r.1 then none else some r.2))
    (some initState)

/-! ### Rule programmer (`install_path`) -/

/-- An OpenFlow rule as installed by `add_flow`: switch, priority, match
fields, and the output ports of the action list (empty list = drop). -/
structure Rule where
  sw : Nat
  rulePrio : Nat
  ethType : Option Nat
  ipSrc : Option String
  ipDst : Option String
  outPorts : List Nat
deriving DecidableEq, Repr

/-- Table-miss priority (`switch_features_handler`). -/
def P_DEFAULT : Nat := 0

/-- L2 learning rule priority (`_packet_in_handler`). -/
def P_L2_LEARN : Nat := 1

/-- Isolation drop rule priority (`install_path`). -/
def P_ISO : Nat := 9

/-- Slice forwarding rule priority (`install_path`). -/
def P_FWD : Nat := 10

/-- The per-hop forwarding rules of one direction of `install_path`: for
each adjacent pair with a connected datapath (`datapath_list.get`), a rule
at priority 10 matching (eth_type 0x0800, ipv4_src, ipv4_dst) with output
to the egress port. -/
def fwdRulesAlong (dpids : List Nat) (p : List Nat) (srcIp dstIp : String) : List Rule :=
  (edgesOf p).filterMap (fun e =>
    if e.1 ∈ dpids then
      some { sw := e.1, rulePrio := P_FWD, ethType := some 0x0800,
             ipSrc := some srcIp, ipDst := some dstIp, outPorts := [edgePort e.1 e.2] }
    else none)

/-- The isolation drop rule of `install_path`: priority 9 at the given
switch (if connected), matching (eth_type 0x0800, ipv4_src), empty action
list. -/
def isoRuleAt (dpids : List Nat) (sw : Nat) (srcIp : String) : List Rule :=
  if sw ∈ dpids then
    [{ sw := sw, rulePrio := P_ISO, ethType := some 0x0800,
       ipSrc := some srcIp, ipDst := none, outPorts := [] }]
  else []

/-- Function `install_path`: the full rule list installed for one path of a flow, in
installation order — forward rules, forward isolation drop at `path[0]`,
reverse rules along the reversed path with the IPs swapped, reverse
isolation drop at `reverse_path[0]`.  (The trailing QoS shaper invocation
is an external side effect, not a rule.) -/
def install_path (dpids : List Nat) (path : List Nat) (srcHost dstHost : String) : List Rule :=
  let a := ipOf srcHost
  let b := ipOf dstHost
  let rev := path.reverse
  fwdRulesAlong dpids path a b ++ isoRuleAt dpids path.headI a
    ++ fwdRulesAlong dpids rev b a ++ isoRuleAt dpids rev.headI b

/-! ### Invariant vocabulary -/

/-- Names of the active table, in order. -/
def namesOf (act : List (String × ActiveInfo)) : List String :=
  act.map Prod.fst

/-- How many times the recorded paths of a slice traverse edge `e`
(counting once per path traversal). -/
def countPathsI (e : Nat × Nat) (ps : List (List Nat)) : Int :=
  (ps.map (fun p => ((edgesOf p).count e : Int))).sum

/-- The spec I2 sum: `Σ reservedBw(s)` over active slices, once per path
traversal of `e`. -/
def sliceSum (act : List (String × ActiveInfo)) (e : Nat × Nat) : Int :=
  (act.map (fun t => t.2.bw * countPathsI e t.2.paths)).sum

/-- Inductive invariant of the controller state: the active table has no
duplicate names (I5), every recorded path runs along real edges, and
`used_bw` is the I2 sum. -/
def InvC (st : CState) : Prop :=
  (namesOf st.active).Nodup ∧
  (∀ t ∈ st.active, ∀ p ∈ t.2.paths, validEdgePathB p = true) ∧
  (∀ e : Nat × Nat, st.used e = sliceSum st.active e)

/-- Total reserved bandwidth of a list of victim entries. -/
def sumBw (l : List (String × Int × Int)) : Int :=
  (l.map (fun t => t.2.1)).sum

/-- The ordering the spec claims for the preemptable list: ascending
priority, ties by ascending reserved bandwidth, remaining ties by name. -/
def claimVictimLE (a b : String × Int × Int) : Prop :=
  a.2.2 < b.2.2 ∨ (a.2.2 = b.2.2 ∧
    (a.2.1 < b.2.1 ∨ (a.2.1 = b.2.1 ∧ (a.1 < b.1 ∨ a.1 = b.1))))

instance (a b : String × Int × Int) : Decidable (claimVictimLE a b) :=
  inferInstanceAs (Decidable (a.2.2 < b.2.2 ∨ (a.2.2 = b.2.2 ∧
    (a.2.1 < b.2.1 ∨ (a.2.1 = b.2.1 ∧ (a.1 < b.1 ∨ a.1 = b.1))))))

/-- A list sorted the way the spec claims the preemptable list is. -/
def claimOrdered (l : List (String × Int × Int)) : Prop :=
  List.Chain' claimVictimLE l

instance (l : List (String × Int × Int)) : Decidable (claimOrdered l) :=
  inferInstanceAs (Decidable (List.Chain' claimVictimLE l))

/-- Boolean proxy for path validity of every BFS result between graph
nodes; checked by evaluation over the 25 node pairs. -/
def bfsAllValidB : Bool :=
  nodeList.all (fun s => nodeList.all (fun d =>
    match bfs d 20 [[s]] [s] with
    | some p => validEdgePathB p
    | none => true))

/-! ### Concrete inputs used by counterexamples and witnesses -/

/-- Catalog for the overbooking run: one slice, 60 percent, two flows that
share edges s1-s2 and s2-s3 (h1 and h2 attach to s1, h3 and h4 to s3). -/
def catTwoFlows : Catalog :=
  [("D2", ⟨60, some 1, [⟨"h1", "h3"⟩, ⟨"h2", "h4"⟩]⟩)]

/-- Catalog with a flow whose destination host is absent from the host
map (spec scenario S5). -/
def catMissingHost : Catalog :=
  [("C", ⟨50, some 1, [⟨"h1", "hX"⟩]⟩)]

/-- Catalog for the sort-order counterexample: X and Y at equal priority 0
with reserved bandwidths 50 and 20, Z at priority 1 needing preemption. -/
def catSortDemo : Catalog :=
  [("X", ⟨50, some 0, [⟨"h1", "h3"⟩]⟩),
   ("Y", ⟨20, some 0, [⟨"h1", "h3"⟩]⟩),
   ("Z", ⟨60, some 1, [⟨"h1", "h3"⟩]⟩)]

/-- State after activating X then Y: `used_bw(s1→s2) = 70`. -/
def stSortDemo : CState :=
  (runOps catSortDemo [Op.act "X", Op.act "Y"]).getD initState

/-- Catalog for the minimality counterexample: victims A (10) and B (80)
at priority 0, candidate S needing 90 at priority 1. -/
def catGreedyDemo : Catalog :=
  [("A", ⟨10, some 0, [⟨"h1", "h3"⟩]⟩),
   ("B", ⟨80, some 0, [⟨"h1", "h3"⟩]⟩),
   ("S", ⟨90, some 1, [⟨"h1", "h3"⟩]⟩)]

/-- State after activating A then B: `used_bw(s1→s2) = 90`. -/
def stGreedyDemo : CState :=
  (runOps catGreedyDemo [Op.act "A", Op.act "B"]).getD initState

/-- Catalog for the priority-monotonicity witness: A at priority 5 must
survive the admission of S at priority 3, which preempts only B. -/
def catPrioDemo : Catalog :=
  [("A", ⟨10, some 5, [⟨"h1", "h3"⟩]⟩),
   ("B", ⟨80, some 0, [⟨"h1", "h3"⟩]⟩),
   ("S", ⟨90, some 3, [⟨"h1", "h3"⟩]⟩)]

/-- State after activating A then B under `catPrioDemo`. -/
def stPrioDemo : CState :=
  (runOps catPrioDemo [Op.act "A", Op.act "B"]).getD initState

/-- Single-slice catalog used by the conservation witness. -/
def catConserve : Catalog :=
  [("A", ⟨60, some 1, [⟨"h1", "h3"⟩]⟩)]

/-- State reached by activating and then deactivating slice A (spec
scenario S4): everything back to zero. -/
def stAfterDeact : CState :=
  (runOps catConserve [Op.act "A", Op.deact "A"]).getD initState

/-! ## Theorems -/

/-- Every `(False, msg)` return of `activate_slice` leaves the state
untouched: all error returns happen in phase 1, before any mutation.
(Shared helper for the error-handling claims.) -/
theorem activate_err_state (cat : Catalog) (st : CState) (name msg : String) (st2 : CState)
    (h : activate_slice cat st name = (Outcome.err msg, st2)) : st2 = st := by
  unfold activate_slice at h
  split at h
  · simp_all
  split at h
  · simp_all
  rename_i xo spec hspec xa hact
  dsimp only at h
  rcases hp : phase1 cat st name spec.capacity_pct (specPrio spec) spec.flows [] [] with e | pv
  · rw [hp] at h
    rcases e with _ | m <;> simp_all
  · rw [hp] at h
    dsimp only at h
    rcases h3 : phase3Go spec.capacity_pct pv.1
        (List.foldl (fun s v => (deactivate_slice s v).2) st pv.2).used [] with ⟨b, used2, done2⟩
    rw [h3] at h
    cases b <;> simp_all

/-- C1: the claimed invariant `used_bw(e) ≤ capacity(e)` FAILS on the code.
A slice with `capacity_pct = 60` and two flows (h1,h3) and (h2,h4), whose
paths both traverse edge s1→s2, is admitted (phase 1 checks each flow
against the unmodified `used_bw`, never accounting for the same candidate slice having
reserved earlier flows) and the completed activation leaves
`used_bw(s1→s2) = 120 > 100 = capacity`. -/
theorem same_slice_flows_overbook_edge :
    (runOps catTwoFlows [Op.act "D2"]).map (fun st => st.used (1, 2)) = some 120 ∧
      ¬ ((120 : Int) ≤ linkCapacity) :=
  ⟨rfl, by decide⟩

/-- C2: whenever `activate_slice` returns `(False, message)` — unknown
slice, already-active slice, unroutable flow, or insufficient capacity
even after preemption — the post state equals the pre state exactly (used
bandwidth counters and active table).  This is even stronger than the
claim, whose allowance for deactivated victims is never exercised. -/
theorem failed_activation_preserves_state (cat : Catalog) (st : CState)
    (name msg : String) (st2 : CState)
    (h : activate_slice cat st name = (Outcome.err msg, st2)) : st2 = st :=
  activate_err_state cat st name msg st2 h

/-- Witness for C2: activating an undefined slice W from a populated state
returns an error and returns that state unchanged. -/
theorem failed_activation_preserves_state_witness :
    (activate_slice catSortDemo stSortDemo "W").2 = stSortDemo :=
  failed_activation_preserves_state catSortDemo stSortDemo "W"
    ("Slice " ++ "W" ++ " not found.") (activate_slice catSortDemo stSortDemo "W").2 rfl

/-- C3: the claim FAILS on the code.  For a catalog slice with a flow
endpoint absent from the host map, `get_host_location` returns `None`,
`nx.shortest_path` raises `NodeNotFound`, and the `except
nx.NetworkXNoPath` clause does not catch it: `activate_slice` terminates
with an uncaught exception instead of returning a `(False, NotFound)`
rejection. -/
theorem activate_missing_host_crashes :
    activate_slice catMissingHost initState "C" = (Outcome.crash, initState) := rfl

/-- C8: `deactivate_slice` on a name that is not in the active table
returns the not-active error and the state bit-identical to the pre-call
state. -/
theorem deactivate_not_active_noop (st : CState) (name : String)
    (h : alookup st.active name = none) :
    deactivate_slice st name = (Outcome.err ("Slice " ++ name ++ " is not active."), st) := by
  unfold deactivate_slice
  rw [h]

/-- Witness for C8: deactivating A immediately after a successful
deactivation of A (scenario S4) returns `NotActive` and changes nothing. -/
theorem deactivate_not_active_noop_witness :
    deactivate_slice stAfterDeact "A"
      = (Outcome.err ("Slice " ++ "A" ++ " is not active."), stAfterDeact) :=
  deactivate_not_active_noop stAfterDeact "A" rfl

/-- C10: a rejected activation is fully atomic — when `activate_slice`
returns an error, every previously active slice entry is still present
afterwards; no preemption victim has been deactivated, because victim
deactivation (phase 2) starts only after every flow has passed phase 1,
and no error return exists after phase 2 starts. -/
theorem failed_activation_leaves_victims_active (cat : Catalog) (st : CState)
    (name msg : String) (st2 : CState)
    (h : activate_slice cat st name = (Outcome.err msg, st2))
    (entry : String × ActiveInfo) (hmem : entry ∈ st.active) : entry ∈ st2.active := by
  rw [activate_err_state cat st name msg st2 h]
  exact hmem

/-- Witness for C10: re-activating the already-active slice A fails and
leaves the entry of A in the table. -/
theorem failed_activation_leaves_victims_active_witness :
    (("A", (⟨[[1, 2, 3]], 10⟩ : ActiveInfo)) : String × ActiveInfo)
      ∈ (activate_slice catGreedyDemo stGreedyDemo "A").2.active :=
  failed_activation_leaves_victims_active catGreedyDemo stGreedyDemo "A"
    ("Slice " ++ "A" ++ " is already active.")
    (activate_slice catGreedyDemo stGreedyDemo "A").2 rfl
    ("A", ⟨[[1, 2, 3]], 10⟩) (by decide)

/-! ### The victim sort (claim C4) -/

/-- Insertion `insPrio` puts the new entry at the front or leaves the previous head. -/
theorem insPrio_head (x : String × Int × Int) (l : List (String × Int × Int)) :
    (insPrio x l).head? = some x ∨ (insPrio x l).head? = l.head? := by
  cases l with
  | nil => left; rfl
  | cons y ys =>
    unfold insPrio
    split
    · right; rfl
    · left; rfl

/-- Stable insertion preserves sortedness by priority. -/
theorem chain'_insPrio (x : String × Int × Int) (l : List (String × Int × Int))
    (hc : List.Chain' (fun a b : String × Int × Int => a.2.2 ≤ b.2.2) l) :
    List.Chain' (fun a b : String × Int × Int => a.2.2 ≤ b.2.2) (insPrio x l) := by
  induction l with
  | nil => simp [insPrio]
  | cons y ys ih =>
    rw [List.chain'_cons'] at hc
    unfold insPrio
    split
    · rename_i hle
      rw [List.chain'_cons']
      refine ⟨?_, ih hc.2⟩
      intro z hz
      rcases insPrio_head x ys with h1 | h1
      · rw [h1, Option.mem_def, Option.some.injEq] at hz
        exact hz ▸ hle
      · rw [h1] at hz
        exact hc.1 z hz
    · rename_i hgt
      refine List.chain'_cons.mpr ⟨by omega, List.chain'_cons'.mpr hc⟩

/-- The insertion fold preserves sortedness by priority. -/
theorem chain'_foldl_insPrio (xs : List (String × Int × Int)) :
    ∀ acc, List.Chain' (fun a b : String × Int × Int => a.2.2 ≤ b.2.2) acc →
      List.Chain' (fun a b : String × Int × Int => a.2.2 ≤ b.2.2)
        (xs.foldl (fun a x => insPrio x a) acc) := by
  induction xs with
  | nil => intro acc h; exact h
  | cons x xs ih =>
    intro acc h
    exact ih _ (chain'_insPrio x acc h)

/-- In a priority-sorted list whose head priority exceeds `c`, nothing has
priority `c`. -/
theorem filter_nil_of_lt (c : Int) (l : List (String × Int × Int))
    (hc : List.Chain' (fun a b : String × Int × Int => a.2.2 ≤ b.2.2) l)
    (hh : ∀ z ∈ l.head?, c < z.2.2) :
    l.filter (fun t => t.2.2 == c) = [] := by
  induction l with
  | nil => rfl
  | cons y ys ih =>
    rw [List.chain'_cons'] at hc
    have hy : c < y.2.2 := hh y rfl
    rw [List.filter_cons]
    have : (y.2.2 == c) = false := by
      simp only [beq_eq_false_iff_ne, ne_eq]
      omega
    rw [this]
    exact ih hc.2 (fun z hz => lt_of_lt_of_le hy (hc.1 z hz))

/-- Effect of one stable insertion on the entries of one priority tier:
the inserted entry lands after every earlier entry of its own tier. -/
theorem filter_insPrio (x : String × Int × Int) (c : Int) (l : List (String × Int × Int))
    (hc : List.Chain' (fun a b : String × Int × Int => a.2.2 ≤ b.2.2) l) :
    (insPrio x l).filter (fun t => t.2.2 == c) =
      if x.2.2 = c then l.filter (fun t => t.2.2 == c) ++ [x]
      else l.filter (fun t => t.2.2 == c) := by
  induction l with
  | nil =>
    unfold insPrio
    rw [List.filter_cons]
    by_cases hx : x.2.2 = c <;> simp [hx]
  | cons y ys ih =>
    rw [List.chain'_cons'] at hc
    unfold insPrio
    split
    · rename_i hle
      rw [List.filter_cons, ih hc.2, List.filter_cons]
      by_cases hx : x.2.2 = c <;> by_cases hy : (y.2.2 == c) = true <;>
        simp [hx, hy]
    · rename_i hgt
      rw [List.filter_cons]
      by_cases hx : x.2.2 = c
      · have hlt : ∀ z ∈ (y :: ys).head?, c < z.2.2 := by
          intro z hz
          have hzy : y = z := Option.some.inj hz
          rw [← hzy]
          omega
        have hnil := filter_nil_of_lt c (y :: ys) (List.chain'_cons'.mpr hc) hlt
        simp only [hx, if_pos rfl, hnil]
        simp
      · have : (x.2.2 == c) = false := by
          simp only [beq_eq_false_iff_ne, ne_eq]
          exact hx
        rw [this]
        simp [hx]

/-- Stability of the full fold: each priority tier of the output is the
corresponding filter of `acc` followed by that of the input, in input
order. -/
theorem filter_foldl_insPrio (c : Int) (xs : List (String × Int × Int)) :
    ∀ acc, List.Chain' (fun a b : String × Int × Int => a.2.2 ≤ b.2.2) acc →
      (xs.foldl (fun a x => insPrio x a) acc).filter (fun t => t.2.2 == c) =
        acc.filter (fun t => t.2.2 == c) ++ xs.filter (fun t => t.2.2 == c) := by
  induction xs with
  | nil => intro acc h; simp
  | cons x xs ih =>
    intro acc h
    simp only [List.foldl_cons]
    rw [ih _ (chain'_insPrio x acc h), filter_insPrio x c acc h, List.filter_cons]
    by_cases hx : x.2.2 = c
    · simp [hx]
    · have : (x.2.2 == c) = false := by
        simp only [beq_eq_false_iff_ne, ne_eq]
        exact hx
      simp [hx, this]

/-- C4 counterexample: the claim FAILS on the code.  In the reachable
state with X (bw 50, priority 0) activated before Y (bw 20, priority 0),
the preemptable list of the engine for a priority-1 candidate on bottleneck
edge s1→s2 is `[X(50), Y(20)]` — NOT ordered by ascending reservedBw
within the equal priority tier (`list.sort(key=lambda x: x[2])` sorts by
priority only, keeping insertion order) — and the greedy choice takes X,
the larger reservation, leaving Y active. -/
theorem preemption_sort_counterexample :
    sortByPrio (preemptable catSortDemo stSortDemo.active 1 1 2)
        = [("X", 50, 0), ("Y", 20, 0)] ∧
      ¬ claimOrdered [("X", 50, 0), ("Y", 20, 0)] ∧
      (greedyEntries (linkCapacity - stSortDemo.used (1, 2)) 60 0
          (sortByPrio (preemptable catSortDemo stSortDemo.active 1 1 2))).2.map
            (fun t => t.1) = ["X"] ∧
      (runOps catSortDemo [Op.act "X", Op.act "Y", Op.act "Z"]).map
          (fun st => st.active.map Prod.fst) = some ["Y", "Z"] := by
  refine ⟨by decide, ?_, by decide, by decide⟩
  intro h
  exact absurd (List.chain'_cons.mp h).1 (by decide)

/-- C4 amended: the sort of the engine orders the preemptable list by
ascending priority ONLY; the Python sort is stable, so within one tier the
active-table insertion order (activation order) is preserved — reservedBw
and name play no role.  Formally: the output of `sortByPrio` is sorted by
priority, and its restriction to each priority tier equals that of the
input, in input order. -/
theorem preemption_sort_stable_by_priority (l : List (String × Int × Int)) :
    List.Chain' (fun a b : String × Int × Int => a.2.2 ≤ b.2.2) (sortByPrio l) ∧
      ∀ c : Int, (sortByPrio l).filter (fun t => t.2.2 == c) =
        l.filter (fun t => t.2.2 == c) := by
  constructor
  · exact chain'_foldl_insPrio l [] (by simp)
  · intro c
    unfold sortByPrio
    rw [filter_foldl_insPrio c l [] (by simp)]
    rfl

/-! ### Greedy victim choice (claim C5) -/

/-- Every entry the greedy loop selects comes from its input list. -/
theorem greedy_entries_subset_input :
    ∀ (pre : List (String × Int × Int)) (avail need freed : Int) (t : String × Int × Int),
      t ∈ (greedyEntries avail need freed pre).2 → t ∈ pre := by
  intro pre
  induction pre with
  | nil => intro _ _ _ t ht; exact absurd ht (List.not_mem_nil t)
  | cons e rest ih =>
    intro avail need freed t ht
    rcases e with ⟨n, bw, p⟩
    unfold greedyEntries at ht
    split at ht
    · exact absurd ht (List.not_mem_nil t)
    · rcases List.mem_cons.mp ht with h1 | h1
      · rw [h1]; exact List.mem_cons_self _ _
      · exact List.mem_cons_of_mem _ (ih avail need (freed + bw) t h1)

/-- C5 counterexample: the claim FAILS on the code.  In the reachable
state with A (bw 10) and B (bw 80) active at priority 0 and
`used_bw(s1→s2) = 90`, admitting S (need 90, priority 1) selects victims
`[A, B]` on edge s1→s2, yet the strict subset `[B]` already satisfies
`available + freed ≥ need` (10 + 80 ≥ 90): the greedy choice is not
subset-minimal (this also refutes spec property T4 under its own sort
order). -/
theorem greedy_victims_not_subset_minimal :
    sortByPrio (preemptable catGreedyDemo stGreedyDemo.active 1 1 2)
        = [("A", 10, 0), ("B", 80, 0)] ∧
      (greedyEntries (linkCapacity - stGreedyDemo.used (1, 2)) 90 0
          (sortByPrio (preemptable catGreedyDemo stGreedyDemo.active 1 1 2))).2
        = [("A", 10, 0), ("B", 80, 0)] ∧
      linkCapacity - stGreedyDemo.used (1, 2)
          + sumBw [(("B" : String), (80 : Int), (0 : Int))] ≥ 90 ∧
      (runOps catGreedyDemo [Op.act "A", Op.act "B", Op.act "S"]).map
          (fun st => st.active.map Prod.fst) = some ["S"] := by
  refine ⟨by decide, by decide, by decide, by decide⟩

/-- C5 amended: the victim set chosen on a bottleneck edge is
prefix-minimal — a victim is added only while `available + freed < need`,
so every proper prefix of the chosen victim sequence leaves
`available + freed < need` (in particular the last victim is necessary);
a strict subset that is not a prefix may still suffice. -/
theorem greedy_victims_prefix_insufficient (pre : List (String × Int × Int)) :
    ∀ (avail need freed : Int) (k : Nat),
      k < ((greedyEntries avail need freed pre).2).length →
      avail + freed + sumBw (((greedyEntries avail need freed pre).2).take k) < need := by
  induction pre with
  | nil => intro avail need freed k hk; simp [greedyEntries] at hk
  | cons e rest ih =>
    intro avail need freed k hk
    rcases e with ⟨n, bw, p⟩
    unfold greedyEntries at hk ⊢
    split at hk
    · simp at hk
    · rename_i hlt
      rw [if_neg hlt]
      dsimp only
      simp only [List.length_cons] at hk
      cases k with
      | zero =>
        simp only [List.take_zero, sumBw, List.map_nil, List.sum_nil, add_zero]
        omega
      | succ j =>
        simp only [List.take_succ_cons, sumBw, List.map_cons, List.sum_cons]
        have hj : j < ((greedyEntries avail need (freed + bw) rest).2).length :=
          Nat.lt_of_succ_lt_succ hk
        have := ih avail need (freed + bw) j hj
        unfold sumBw at this
        omega

/-- Witness for the amended C5: on the counterexample input, the proper
prefix `[A]` of the chosen victims leaves 10 + 10 < 90. -/
theorem greedy_victims_prefix_insufficient_witness :
    (10 : Int) + 0 + sumBw (((greedyEntries 10 90 0
        [(("A" : String), (10 : Int), (0 : Int)), ("B", 80, 0)]).2).take 1) < 90 :=
  greedy_victims_prefix_insufficient [("A", 10, 0), ("B", 80, 0)] 10 90 0 1 (by decide)


/-! ### Priority monotonicity (claim C6) -/

theorem mem_preemptable (cat : Catalog) (prio : Int) (u v : Nat) :
    ∀ (act : List (String × ActiveInfo)) (t : String × Int × Int),
      t ∈ preemptable cat act prio u v → catPriority cat t.1 < prio := by
  intro act
  induction act with
  | nil => intro t ht; exact absurd ht (List.not_mem_nil t)
  | cons e rest ih =>
    intro t ht
    rcases e with ⟨n, info⟩
    unfold preemptable at ht
    dsimp only at ht
    split at ht
    · rename_i hcond
      rcases List.mem_cons.mp ht with h1 | h1
      · rw [h1]
        exact hcond.1
      · exact ih t h1
    · exact ih t ht

theorem mem_insPrio (x : String × Int × Int) :
    ∀ (l : List (String × Int × Int)) (t : String × Int × Int),
      t ∈ insPrio x l → t = x ∨ t ∈ l := by
  intro l
  induction l with
  | nil => intro t ht; left; exact (List.mem_singleton.mp ht)
  | cons y ys ih =>
    intro t ht
    unfold insPrio at ht
    split at ht
    · rcases List.mem_cons.mp ht with h1 | h1
      · right; exact List.mem_cons.mpr (Or.inl h1)
      · rcases ih t h1 with h2 | h2
        · left; exact h2
        · right; exact List.mem_cons.mpr (Or.inr h2)
    · rcases List.mem_cons.mp ht with h1 | h1
      · left; exact h1
      · right; exact h1

theorem mem_sortByPrio (l : List (String × Int × Int)) (t : String × Int × Int)
    (ht : t ∈ sortByPrio l) : t ∈ l := by
  suffices h : ∀ (xs acc : List (String × Int × Int)) (t : String × Int × Int),
      t ∈ xs.foldl (fun a x => insPrio x a) acc → t ∈ acc ∨ t ∈ xs by
    rcases h l [] t ht with h1 | h1
    · exact absurd h1 (List.not_mem_nil t)
    · exact h1
  intro xs
  induction xs with
  | nil => intro acc s hs; left; exact hs
  | cons x xs ih =>
    intro acc s hs
    simp only [List.foldl_cons] at hs
    rcases ih (insPrio x acc) s hs with h1 | h1
    · rcases mem_insPrio x acc s h1 with h2 | h2
      · right; exact List.mem_cons.mpr (Or.inl h2)
      · left; exact h2
    · right; exact List.mem_cons.mpr (Or.inr h1)

theorem mem_unionNames (a b : List String) (s : String)
    (hs : s ∈ unionNames a b) : s ∈ a ∨ s ∈ b := by
  unfold unionNames at hs
  rcases List.mem_append.mp hs with h1 | h1
  · left; exact h1
  · right; exact (List.mem_filter.mp h1).1

theorem checkHops_victims (cat : Catalog) (st : CState) (name : String) (need prio : Int) :
    ∀ (hops : List (Nat × Nat)) (vacc vs : List String),
      checkHops cat st name need prio vacc hops = .ok vs →
      (∀ s ∈ vacc, catPriority cat s < prio) →
      ∀ s ∈ vs, catPriority cat s < prio := by
  intro hops
  induction hops with
  | nil =>
    intro vacc vs h hacc
    unfold checkHops at h
    cases h
    exact hacc
  | cons e rest ih =>
    intro vacc vs h hacc
    rcases e with ⟨u, v⟩
    unfold checkHops at h
    dsimp only at h
    split at h
    · split at h
      · refine ih _ vs h ?_
        intro s hsu
        rcases mem_unionNames _ _ s hsu with h1 | h1
        · exact hacc s h1
        · rcases List.mem_map.mp h1 with ⟨t, htm, hts⟩
          have := mem_preemptable cat prio u v st.active t
            (mem_sortByPrio _ t (greedy_entries_subset_input _ _ _ _ t htm))
          rw [← hts]
          exact this
      · exact absurd h (by simp)
    · exact ih vacc vs h hacc

theorem phase1_victims (cat : Catalog) (st : CState) (name : String) (need prio : Int) :
    ∀ (fs : List Flow) (pacc : List (List Nat)) (vacc : List String)
      (ps : List (List Nat)) (vs : List String),
      phase1 cat st name need prio fs pacc vacc = .ok (ps, vs) →
      (∀ s ∈ vacc, catPriority cat s < prio) →
      ∀ s ∈ vs, catPriority cat s < prio := by
  intro fs
  induction fs with
  | nil =>
    intro pacc vacc ps vs h hacc
    unfold phase1 at h
    cases h
    exact hacc
  | cons f rest ih =>
    intro pacc vacc ps vs h hacc
    unfold phase1 at h
    split at h
    · exact absurd h (by simp)
    · exact absurd h (by simp)
    · rename_i p hp
      split at h
      · exact absurd h (by simp)
      · rename_i vacc2 hck
        exact ih _ _ ps vs h (checkHops_victims cat st name need prio _ vacc vacc2 hck hacc)

theorem mem_removeSlice_of_ne (v : String) :
    ∀ (act : List (String × ActiveInfo)) (entry : String × ActiveInfo),
      entry ∈ act → entry.1 ≠ v → entry ∈ removeSlice act v := by
  intro act
  induction act with
  | nil => intro entry h _; exact absurd h (List.not_mem_nil entry)
  | cons e rest ih =>
    intro entry h hne
    rcases e with ⟨k, info⟩
    unfold removeSlice
    split
    · rename_i hk
      rcases List.mem_cons.mp h with h1 | h1
      · exact absurd (by rw [h1, hk]) hne
      · exact ih entry h1 hne
    · rcases List.mem_cons.mp h with h1 | h1
      · rw [h1]; exact List.mem_cons_self _ _
      · exact List.mem_cons_of_mem _ (ih entry h1 hne)

theorem deactivate_keeps_entry (st : CState) (v : String) (entry : String × ActiveInfo)
    (hmem : entry ∈ st.active) (hne : entry.1 ≠ v) :
    entry ∈ (deactivate_slice st v).2.active := by
  unfold deactivate_slice
  split
  · exact hmem
  · exact mem_removeSlice_of_ne v st.active entry hmem hne

theorem foldl_deact_keeps (victims : List String) :
    ∀ (st : CState) (entry : String × ActiveInfo),
      entry ∈ st.active → (∀ v ∈ victims, entry.1 ≠ v) →
      entry ∈ (victims.foldl (fun s v => (deactivate_slice s v).2) st).active := by
  induction victims with
  | nil => intro st entry h _; exact h
  | cons v rest ih =>
    intro st entry h hne
    simp only [List.foldl_cons]
    refine ih _ entry ?_ ?_
    · exact deactivate_keeps_entry st v entry h (hne v (List.mem_cons_self _ _))
    · intro w hw
      exact hne w (List.mem_cons_of_mem _ hw)

theorem activate_keeps_ge_priority (cat : Catalog) (st : CState) (name : String)
    (entry : String × ActiveInfo) (hmem : entry ∈ st.active)
    (hprio : catPriority cat name ≤ catPriority cat entry.1) :
    entry ∈ (activate_slice cat st name).2.active := by
  unfold activate_slice
  split
  · exact hmem
  split
  · exact hmem
  rename_i xo spec hspec xa hact
  dsimp only
  rcases hp : phase1 cat st name spec.capacity_pct (specPrio spec) spec.flows [] [] with e | pv
  · rcases e with _ | m <;> exact hmem
  · dsimp only
    have hv : ∀ s ∈ pv.2, catPriority cat s < specPrio spec :=
      phase1_victims cat st name spec.capacity_pct (specPrio spec) spec.flows [] [] pv.1 pv.2
        (by rw [hp]) (by intro s hs; exact absurd hs (List.not_mem_nil s))
    have hname : catPriority cat name = specPrio spec := by
      unfold catPriority
      rw [hspec]
    have hkeep : entry ∈ ((pv.2.foldl (fun s v => (deactivate_slice s v).2) st)).active := by
      refine foldl_deact_keeps pv.2 st entry hmem ?_
      intro v hvmem heq
      have h1 := hv v hvmem
      rw [← heq] at h1
      rw [hname] at hprio
      omega
    rcases phase3Go spec.capacity_pct pv.1
        (List.foldl (fun s v => (deactivate_slice s v).2) st pv.2).used [] with ⟨b, used2, done2⟩
    cases b
    · exact List.mem_append_left _ hkeep
    · exact List.mem_append_left _ hkeep

/-- C6: for every reachable state and every activation of slice S, no
active slice whose priority is ≥ the priority of S is removed from the
active table by that activation: the preemptable filter admits only
strictly lower priorities, so every entry of priority ≥ that of S survives
(with its record intact) into the post state. -/
theorem higher_priority_never_preempted (cat : Catalog) (ops : List Op) (st : CState)
    (name n : String) (info : ActiveInfo)
    (hreach : runOps cat ops = some st)
    (hmem : (n, info) ∈ st.active)
    (hprio : catPriority cat name ≤ catPriority cat n) :
    (n, info) ∈ (activate_slice cat st name).2.active :=
  activate_keeps_ge_priority cat st name (n, info) hmem hprio

/-- Witness for C6: activating S (priority 3), which preempts B
(priority 0), keeps A (priority 5) active. -/
theorem higher_priority_never_preempted_witness :
    (("A", (⟨[[1, 2, 3]], 10⟩ : ActiveInfo)) : String × ActiveInfo)
      ∈ (activate_slice catPrioDemo stPrioDemo "S").2.active :=
  higher_priority_never_preempted catPrioDemo [Op.act "A", Op.act "B"] stPrioDemo
    "S" "A" ⟨[[1, 2, 3]], 10⟩ rfl (by decide) (by decide)


/-! ### Rule shape (claim C9) -/

theorem filterMap_if_mem {α β : Type} (P : α → Prop) [DecidablePred P] (g : α → β) :
    ∀ l : List α, (∀ x ∈ l, P x) →
      l.filterMap (fun x => if P x then some (g x) else none) = l.map g := by
  intro l
  induction l with
  | nil => intro _; rfl
  | cons a l ih =>
    intro h
    simp only [List.filterMap_cons, List.map_cons, if_pos (h a (List.mem_cons_self a l))]
    rw [ih (fun x hx => h x (List.mem_cons_of_mem a hx))]

theorem edgesOf_fst_mem (p : List Nat) (e : Nat × Nat) (he : e ∈ edgesOf p) : e.1 ∈ p := by
  unfold edgesOf at he
  rcases e with ⟨a, b⟩
  exact (List.of_mem_zip he).1

theorem headI_mem_of_ne_nil (l : List Nat) (h : l ≠ []) : l.headI ∈ l := by
  cases l with
  | nil => exact absurd rfl h
  | cons a t => exact List.mem_cons_self a t

theorem fwdRulesAlong_all_present (p : List Nat) (a b : String)
    (h : ∀ e ∈ edgesOf p, e.1 ∈ nodeList) :
    fwdRulesAlong nodeList p a b = (edgesOf p).map (fun e =>
      { sw := e.1, rulePrio := P_FWD, ethType := some 0x0800, ipSrc := some a,
        ipDst := some b, outPorts := [edgePort e.1 e.2] }) := by
  unfold fwdRulesAlong
  exact filterMap_if_mem (fun e : Nat × Nat => e.1 ∈ nodeList) _ (edgesOf p) h

/-- C9: for an activated path `p = [s0, ..., sk]` (all hops in the switch
inventory), `install_path` installs exactly: a forward rule at priority 10
on each `si` (i < k) matching (ethType IPv4, ipSrc A, ipDst B) with output
to the egress port of `si→si+1`; one drop (empty-action) isolation rule at
priority 9 at `s0` matching ipSrc A; the symmetric reverse rules at
priority 10 along the reversed path with A and B swapped; and one drop
rule at priority 9 at `sk` matching ipSrc B.  The rule priorities satisfy
0 (table-miss) < 1 (L2 learning) < 9 (isolation) < 10 (forwarding). -/
theorem install_path_rule_shape (p : List Nat) (srcHost dstHost : String)
    (hlen : 2 ≤ p.length) (hnodes : ∀ x ∈ p, x ∈ nodeList) :
    install_path nodeList p srcHost dstHost =
      ((edgesOf p).map (fun e =>
        { sw := e.1, rulePrio := P_FWD, ethType := some 0x0800,
          ipSrc := some (ipOf srcHost), ipDst := some (ipOf dstHost),
          outPorts := [edgePort e.1 e.2] }))
      ++ [{ sw := p.headI, rulePrio := P_ISO, ethType := some 0x0800,
            ipSrc := some (ipOf srcHost), ipDst := none, outPorts := [] }]
      ++ ((edgesOf p.reverse).map (fun e =>
        { sw := e.1, rulePrio := P_FWD, ethType := some 0x0800,
          ipSrc := some (ipOf dstHost), ipDst := some (ipOf srcHost),
          outPorts := [edgePort e.1 e.2] }))
      ++ [{ sw := p.reverse.headI, rulePrio := P_ISO, ethType := some 0x0800,
            ipSrc := some (ipOf dstHost), ipDst := none, outPorts := [] }] ∧
      P_DEFAULT < P_L2_LEARN ∧ P_L2_LEARN < P_ISO ∧ P_ISO < P_FWD := by
  have hpne : p ≠ [] := by
    intro hnil
    rw [hnil] at hlen
    simp at hlen
  have hrne : p.reverse ≠ [] := by
    intro hnil
    exact hpne (List.reverse_eq_nil_iff.mp hnil)
  have hrev : ∀ x ∈ p.reverse, x ∈ nodeList := by
    intro x hx
    exact hnodes x (List.mem_reverse.mp hx)
  refine ⟨?_, by decide, by decide, by decide⟩
  unfold install_path
  dsimp only
  rw [fwdRulesAlong_all_present p _ _ (fun e he => hnodes e.1 (edgesOf_fst_mem p e he))]
  rw [fwdRulesAlong_all_present p.reverse _ _
    (fun e he => hrev e.1 (edgesOf_fst_mem p.reverse e he))]
  unfold isoRuleAt
  rw [if_pos (hnodes p.headI (headI_mem_of_ne_nil p hpne)),
    if_pos (hrev p.reverse.headI (headI_mem_of_ne_nil p.reverse hrne))]

/-- Witness for C9: the rule list for path s1-s2-s3 of flow (h1, h3). -/
theorem install_path_rule_shape_witness :
    install_path nodeList [1, 2, 3] "h1" "h3" =
      ((edgesOf [1, 2, 3]).map (fun e =>
        { sw := e.1, rulePrio := P_FWD, ethType := some 0x0800,
          ipSrc := some (ipOf "h1"), ipDst := some (ipOf "h3"),
          outPorts := [edgePort e.1 e.2] }))
      ++ [{ sw := List.headI [1, 2, 3], rulePrio := P_ISO, ethType := some 0x0800,
            ipSrc := some (ipOf "h1"), ipDst := none, outPorts := [] }]
      ++ ((edgesOf (List.reverse [1, 2, 3])).map (fun e =>
        { sw := e.1, rulePrio := P_FWD, ethType := some 0x0800,
          ipSrc := some (ipOf "h3"), ipDst := some (ipOf "h1"),
          outPorts := [edgePort e.1 e.2] }))
      ++ [{ sw := (List.reverse [1, 2, 3]).headI, rulePrio := P_ISO, ethType := some 0x0800,
            ipSrc := some (ipOf "h3"), ipDst := none, outPorts := [] }] ∧
      P_DEFAULT < P_L2_LEARN ∧ P_L2_LEARN < P_ISO ∧ P_ISO < P_FWD :=
  install_path_rule_shape [1, 2, 3] "h1" "h3" (by decide) (by decide)


/-! ### Capacity conservation (claim C7) -/

theorem foldl_reserve_count (bw : Int) :
    ∀ (l : List (Nat × Nat)) (f : Nat × Nat → Int) (e : Nat × Nat),
      (l.foldl (fun g x => updUsed g x (g x + bw)) f) e = f e + bw * (l.count e : Int) := by
  intro l
  induction l with
  | nil => intro f e; simp
  | cons a l ih =>
    intro f e
    rw [List.foldl_cons, ih]
    unfold updUsed
    by_cases he : e = a
    · rw [if_pos he, List.count_cons, he]
      simp
      ring
    · rw [if_neg he, List.count_cons]
      have : (a == e) = false := by
        simp only [beq_eq_false_iff_ne, ne_eq]
        intro hae
        exact he hae.symm
      rw [this]
      simp

theorem reserveHops_eval (f : Nat × Nat → Int) (p : List Nat) (bw : Int) (e : Nat × Nat) :
    reserveHops f p bw e = f e + bw * ((edgesOf p).count e : Int) :=
  foldl_reserve_count bw (edgesOf p) f e

theorem foldl_release_count (bw : Int) :
    ∀ (l : List (Nat × Nat)) (f : Nat × Nat → Int) (e : Nat × Nat),
      (∀ x ∈ l, hasEdge x.1 x.2 = true) →
      (l.foldl (fun g x => if hasEdge x.1 x.2 then updUsed g x (g x - bw) else g) f) e
        = f e - bw * (l.count e : Int) := by
  intro l
  induction l with
  | nil => intro f e _; simp
  | cons a l ih =>
    intro f e hval
    rw [List.foldl_cons, if_pos (hval a (List.mem_cons_self a l))]
    rw [ih _ e (fun x hx => hval x (List.mem_cons_of_mem a hx))]
    unfold updUsed
    by_cases he : e = a
    · rw [if_pos he, List.count_cons, he]
      simp
      ring
    · rw [if_neg he, List.count_cons]
      have : (a == e) = false := by
        simp only [beq_eq_false_iff_ne, ne_eq]
        intro hae
        exact he hae.symm
      rw [this]
      simp

theorem releaseHops_eval (f : Nat × Nat → Int) (p : List Nat) (bw : Int) (e : Nat × Nat)
    (hval : validEdgePathB p = true) :
    releaseHops f p bw e = f e - bw * ((edgesOf p).count e : Int) := by
  unfold releaseHops
  refine foldl_release_count bw (edgesOf p) f e ?_
  intro x hx
  exact List.all_eq_true.mp hval x hx

theorem releasePaths_eval (bw : Int) :
    ∀ (ps : List (List Nat)) (f : Nat × Nat → Int) (e : Nat × Nat),
      (∀ p ∈ ps, validEdgePathB p = true) →
      releasePaths f ps bw e = f e - bw * countPathsI e ps := by
  intro ps
  induction ps with
  | nil => intro f e _; simp [releasePaths, countPathsI]
  | cons p ps ih =>
    intro f e hval
    unfold releasePaths at ih ⊢
    rw [List.foldl_cons]
    rw [ih _ e (fun q hq => hval q (List.mem_cons_of_mem p hq))]
    rw [releaseHops_eval f p bw e (hval p (List.mem_cons_self p ps))]
    unfold countPathsI
    simp only [List.map_cons, List.sum_cons]
    ring

theorem phase3Go_spec (need : Int) :
    ∀ (ps : List (List Nat)) (used : Nat × Nat → Int) (done : List (List Nat))
      (b : Bool) (used2 : Nat × Nat → Int) (done2 : List (List Nat)),
      phase3Go need ps used done = (b, used2, done2) →
      ∃ qs, done2 = done ++ qs ∧ (∀ q ∈ qs, q ∈ ps) ∧
        ∀ e, used2 e = used e + need * countPathsI e qs := by
  intro ps
  induction ps with
  | nil =>
    intro used done b used2 done2 h
    unfold phase3Go at h
    cases h
    refine ⟨[], by simp, by simp, ?_⟩
    intro e
    simp [countPathsI]
  | cons p ps ih =>
    intro used done b used2 done2 h
    unfold phase3Go at h
    split at h
    · cases h
      refine ⟨[p], by simp, ?_, ?_⟩
      · intro q hq
        rw [List.mem_singleton.mp hq]
        exact List.mem_cons_self p ps
      · intro e
        rw [reserveHops_eval used p need e]
        unfold countPathsI
        simp
    · rcases ih _ _ _ _ _ h with ⟨qs, hdone, hsub, heval⟩
      refine ⟨p :: qs, by simpa using hdone, ?_, ?_⟩
      · intro q hq
        rcases List.mem_cons.mp hq with h1 | h1
        · rw [h1]; exact List.mem_cons_self p ps
        · exact List.mem_cons_of_mem p (hsub q h1)
      · intro e
        rw [heval e, reserveHops_eval used p need e]
        unfold countPathsI
        simp only [List.map_cons, List.sum_cons]
        ring

theorem sliceSum_append (act : List (String × ActiveInfo)) (t : String × ActiveInfo)
    (e : Nat × Nat) :
    sliceSum (act ++ [t]) e = sliceSum act e + t.2.bw * countPathsI e t.2.paths := by
  unfold sliceSum
  simp


theorem alookup_some_mem {β : Type} :
    ∀ (act : List (String × β)) (n : String) (i : β),
      alookup act n = some i → (n, i) ∈ act := by
  intro act
  induction act with
  | nil => intro n i h; exact absurd h (by simp [alookup])
  | cons e rest ih =>
    intro n i h
    rcases e with ⟨k, v⟩
    unfold alookup at h
    split at h
    · rename_i hk
      rw [Option.some.injEq] at h
      rw [← hk, ← h]
      exact List.mem_cons_self _ _
    · exact List.mem_cons_of_mem _ (ih n i h)

theorem alookup_none_not_mem {β : Type} :
    ∀ (act : List (String × β)) (n : String),
      alookup act n = none → n ∉ act.map Prod.fst := by
  intro act
  induction act with
  | nil => intro n _ h; exact absurd h (List.not_mem_nil n)
  | cons e rest ih =>
    intro n h hmem
    rcases e with ⟨k, v⟩
    unfold alookup at h
    split at h
    · exact absurd h (by simp)
    · rename_i hk
      rcases List.mem_cons.mp hmem with h1 | h1
      · exact hk h1.symm
      · exact ih n h h1

theorem removeSlice_of_not_mem :
    ∀ (act : List (String × ActiveInfo)) (n : String),
      n ∉ namesOf act → removeSlice act n = act := by
  intro act
  induction act with
  | nil => intro n _; rfl
  | cons e rest ih =>
    intro n h
    rcases e with ⟨k, v⟩
    unfold removeSlice
    split
    · rename_i hk
      exact absurd (by rw [hk]; exact List.mem_cons_self _ _) h
    · rw [ih n (fun hm => h (List.mem_cons_of_mem _ hm))]

theorem mem_removeSlice :
    ∀ (act : List (String × ActiveInfo)) (n : String) (t : String × ActiveInfo),
      t ∈ removeSlice act n → t ∈ act := by
  intro act
  induction act with
  | nil => intro n t h; exact absurd h (List.not_mem_nil t)
  | cons e rest ih =>
    intro n t h
    rcases e with ⟨k, v⟩
    unfold removeSlice at h
    split at h
    · exact List.mem_cons_of_mem _ (ih n t h)
    · rcases List.mem_cons.mp h with h1 | h1
      · rw [h1]; exact List.mem_cons_self _ _
      · exact List.mem_cons_of_mem _ (ih n t h1)

theorem namesOf_removeSlice_sublist :
    ∀ (act : List (String × ActiveInfo)) (n : String),
      List.Sublist (namesOf (removeSlice act n)) (namesOf act) := by
  intro act
  induction act with
  | nil => intro n; exact List.Sublist.refl _
  | cons e rest ih =>
    intro n
    rcases e with ⟨k, v⟩
    unfold removeSlice
    split
    · exact List.Sublist.cons k (ih n)
    · exact List.Sublist.cons₂ k (ih n)

theorem sliceSum_removeSlice :
    ∀ (act : List (String × ActiveInfo)) (n : String) (i : ActiveInfo) (e : Nat × Nat),
      (namesOf act).Nodup → alookup act n = some i →
      sliceSum (removeSlice act n) e = sliceSum act e - i.bw * countPathsI e i.paths := by
  intro act
  induction act with
  | nil => intro n i e _ h; exact absurd h (by simp [alookup])
  | cons t rest ih =>
    intro n i e hnd h
    rcases t with ⟨k, v⟩
    have hnd2 : (namesOf rest).Nodup := (List.nodup_cons.mp hnd).2
    unfold alookup at h
    unfold removeSlice
    split at h
    · rename_i hk
      rw [Option.some.injEq] at h
      rw [if_pos hk]
      have hknotin : k ∉ namesOf rest := (List.nodup_cons.mp hnd).1
      have hnn : n ∉ namesOf rest := by rw [← hk]; exact hknotin
      rw [removeSlice_of_not_mem rest n hnn]
      unfold sliceSum
      simp only [List.map_cons, List.sum_cons, ← h]
      ring
    · rename_i hk
      rw [if_neg hk]
      unfold sliceSum
      simp only [List.map_cons, List.sum_cons]
      have := ih n i e hnd2 h
      unfold sliceSum at this
      rw [this]
      ring

theorem deactivate_inv (st : CState) (v : String) (hinv : InvC st) :
    InvC (deactivate_slice st v).2 := by
  rcases hinv with ⟨hnd, hpaths, hsum⟩
  unfold deactivate_slice
  split
  · exact ⟨hnd, hpaths, hsum⟩
  · rename_i info hlook
    refine ⟨?_, ?_, ?_⟩
    · exact (namesOf_removeSlice_sublist st.active v).nodup hnd
    · intro t ht p hp
      exact hpaths t (mem_removeSlice st.active v t ht) p hp
    · intro e
      dsimp only
      have hmem := alookup_some_mem st.active v info hlook
      have hv : ∀ p ∈ info.paths, validEdgePathB p = true := by
        intro p hp
        exact hpaths (v, info) hmem p hp
      rw [releasePaths_eval info.bw info.paths st.used e hv]
      rw [hsum e]
      rw [sliceSum_removeSlice st.active v info e hnd hlook]

theorem foldl_deact_inv (victims : List String) :
    ∀ st : CState, InvC st →
      InvC (victims.foldl (fun s v => (deactivate_slice s v).2) st) := by
  induction victims with
  | nil => intro st h; exact h
  | cons v rest ih =>
    intro st h
    rw [List.foldl_cons]
    exact ih _ (deactivate_inv st v h)

theorem namesOf_deactivate_sub (st : CState) (v n : String)
    (h : n ∉ namesOf st.active) : n ∉ namesOf (deactivate_slice st v).2.active := by
  unfold deactivate_slice
  split
  · exact h
  · intro hmem
    exact h ((namesOf_removeSlice_sublist st.active v).subset hmem)

theorem namesOf_foldl_deact_sub (victims : List String) :
    ∀ (st : CState) (n : String), n ∉ namesOf st.active →
      n ∉ namesOf ((victims.foldl (fun s v => (deactivate_slice s v).2) st)).active := by
  induction victims with
  | nil => intro st n h; exact h
  | cons v rest ih =>
    intro st n h
    rw [List.foldl_cons]
    exact ih _ n (namesOf_deactivate_sub st v n h)


theorem bfs_all_valid : bfsAllValidB = true := by decide

theorem shortest_path_found_valid (a b : Option Nat) (p : List Nat)
    (h : shortest_path a b = .found p) : validEdgePathB p = true := by
  unfold shortest_path at h
  cases a with
  | none => exact absurd h (by simp)
  | some s =>
    cases b with
    | none => exact absurd h (by simp)
    | some d =>
      dsimp only at h
      split at h
      · rename_i hsd
        split at h
        · rename_i p2 heq
          rw [PathResult.found.injEq] at h
          have h1 := List.all_eq_true.mp bfs_all_valid s hsd.1
          have h2 := List.all_eq_true.mp h1 d hsd.2
          rw [heq] at h2
          dsimp only at h2
          rw [← h]
          exact h2
        · exact absurd h (by simp)
      · exact absurd h (by simp)

theorem phase1_paths_valid (cat : Catalog) (st : CState) (name : String) (need prio : Int) :
    ∀ (fs : List Flow) (pacc : List (List Nat)) (vacc : List String)
      (ps : List (List Nat)) (vs : List String),
      phase1 cat st name need prio fs pacc vacc = .ok (ps, vs) →
      (∀ q ∈ pacc, validEdgePathB q = true) →
      ∀ q ∈ ps, validEdgePathB q = true := by
  intro fs
  induction fs with
  | nil =>
    intro pacc vacc ps vs h hacc
    unfold phase1 at h
    cases h
    exact hacc
  | cons f rest ih =>
    intro pacc vacc ps vs h hacc
    unfold phase1 at h
    split at h
    · exact absurd h (by simp)
    · exact absurd h (by simp)
    · rename_i p hp
      split at h
      · exact absurd h (by simp)
      · rename_i vacc2 hck
        refine ih _ _ ps vs h ?_
        intro q hq
        rcases List.mem_append.mp hq with h1 | h1
        · exact hacc q h1
        · rw [List.mem_singleton.mp h1]
          exact shortest_path_found_valid _ _ p hp

theorem activate_inv (cat : Catalog) (st : CState) (name : String) (hinv : InvC st) :
    InvC (activate_slice cat st name).2 := by
  unfold activate_slice
  split
  · exact hinv
  split
  · exact hinv
  rename_i xo spec hspec xa hact
  dsimp only
  rcases hp : phase1 cat st name spec.capacity_pct (specPrio spec) spec.flows [] [] with e | pv
  · rcases e with _ | m <;> exact hinv
  · dsimp only
    have hinv2 : InvC (pv.2.foldl (fun s v => (deactivate_slice s v).2) st) :=
      foldl_deact_inv pv.2 st hinv
    have hnotin : name ∉
        namesOf ((pv.2.foldl (fun s v => (deactivate_slice s v).2) st)).active :=
      namesOf_foldl_deact_sub pv.2 st name (alookup_none_not_mem st.active name hact)
    have hvalid : ∀ q ∈ pv.1, validEdgePathB q = true := by
      refine phase1_paths_valid cat st name spec.capacity_pct (specPrio spec) spec.flows
        [] [] pv.1 pv.2 (by rw [hp]) ?_
      intro q hq
      exact absurd hq (List.not_mem_nil q)
    rcases h3 : phase3Go spec.capacity_pct pv.1
        (List.foldl (fun s v => (deactivate_slice s v).2) st pv.2).used []
      with ⟨b, used2, done2⟩
    rcases phase3Go_spec spec.capacity_pct pv.1 _ [] b used2 done2 h3 with ⟨qs, hdone, hsub, heval⟩
    rw [List.nil_append] at hdone
    have hres : InvC (CState.mk used2
        ((List.foldl (fun s v => (deactivate_slice s v).2) st pv.2).active
          ++ [(name, ⟨done2, spec.capacity_pct⟩)])) := by
      rcases hinv2 with ⟨hnd2, hpaths2, hsum2⟩
      refine ⟨?_, ?_, ?_⟩
      · unfold namesOf
        dsimp only
        rw [List.map_append]
        rw [List.nodup_append]
        refine ⟨hnd2, by simp, ?_⟩
        intro x hx
        simp only [List.map_cons, List.map_nil, List.mem_singleton]
        intro hxn
        rw [hxn] at hx
        exact hnotin hx
      · intro t ht p hp2
        rcases List.mem_append.mp ht with h1 | h1
        · exact hpaths2 t h1 p hp2
        · rw [List.mem_singleton.mp h1] at hp2
          dsimp only at hp2
          rw [hdone] at hp2
          exact hvalid p (hsub p hp2)
      · intro e
        dsimp only
        rw [heval e, hsum2 e, sliceSum_append]
        dsimp only
        rw [hdone]
    cases b
    · exact hres
    · exact hres

theorem initState_inv : InvC initState := by
  refine ⟨by simp [namesOf, initState], ?_, ?_⟩
  · intro t ht
    exact absurd ht (List.not_mem_nil t)
  · intro e
    simp [initState, sliceSum]

theorem runOp_inv (cat : Catalog) (st : CState) (op : Op) (h : InvC st) :
    InvC (runOp cat st op).2 := by
  cases op with
  | act n => exact activate_inv cat st n h
  | deact n => exact deactivate_inv st n h

theorem runOps_foldl_inv (cat : Catalog) :
    ∀ (ops : List Op) (acc : Option CState),
      (∀ s, acc = some s → InvC s) →
      ∀ st, ops.foldl (fun a op => a.bind (fun s =>
          let r := runOp cat s op
          if isCrash r.1 then none else some r.2)) acc = some st →
        InvC st := by
  intro ops
  induction ops with
  | nil => intro acc hacc st h; exact hacc st h
  | cons op ops ih =>
    intro acc hacc st h
    rw [List.foldl_cons] at h
    refine ih _ ?_ st h
    intro s2 h2
    cases acc with
    | none => exact absurd h2 (by simp)
    | some s0 =>
      simp only [Option.some_bind] at h2
      split at h2
      · exact absurd h2 (by simp)
      · rw [Option.some.injEq] at h2
        rw [← h2]
        exact runOp_inv cat s0 op (hacc s0 rfl)

/-- C7: after every completed `activate_slice` or `deactivate_slice`
operation (any operation sequence from the fresh topology in which no call
raised), the `used_bw` of every edge equals the sum of `bw` over active slices,
counted once per recorded path traversal of the edge: activation adds the
slice bandwidth on each hop of each path and records exactly those paths;
deactivation (preemption-triggered included) subtracts it on each hop of
each recorded path. -/
theorem used_bw_equals_active_sum (cat : Catalog) (ops : List Op) (st : CState)
    (h : runOps cat ops = some st) (u v : Nat) :
    st.used (u, v) = sliceSum st.active (u, v) := by
  unfold runOps at h
  have hinv := runOps_foldl_inv cat ops (some initState)
    (fun s hs => by rw [← Option.some.inj hs]; exact initState_inv) st h
  exact hinv.2.2 (u, v)

/-- Witness for C7: after activating slice A (60, path s1-s2-s3),
`used_bw(s1→s2)` equals the active-slice sum on that edge. -/
theorem used_bw_equals_active_sum_witness :
    ((runOps catConserve [Op.act "A"]).getD initState).used (1, 2)
      = sliceSum ((runOps catConserve [Op.act "A"]).getD initState).active (1, 2) :=
  used_bw_equals_active_sum catConserve [Op.act "A"]
    ((runOps catConserve [Op.act "A"]).getD initState) rfl 1 2

end SDN

